import Mathlib

set_option maxHeartbeats 1600000

/-!
Verification of the chain-registration engine in
`src/sqlalchemy_hooks/events.py`.

The engine is embedded shallowly.  The Python closures created by
`EventListener._register_callback` and `EventListener._wrapper_callback`
are defunctionalised into the inductive `Cb`; the mutable `arg_accum`
lists that those closures share by reference are modelled as cells of an
explicit heap (`World.heap`), so that Python's in-place `+=` mutation and
the `arg_accum or []` re-allocation are both captured exactly.  The
external dispatch system (`sa.event.listen`) is modelled as the ordered
subscription list `World.subs`, and invocations of the user callback
`self.func` are recorded in the trace `World.calls`.
-/

/-- Runtime errors of the embedded Python code. -/
inductive PyErr where
  | attributeError
  | nameError
  | indexError
  | keyError
deriving DecidableEq

/-- One recorded invocation of the user callback `self.func`: either a
positional call `func(*all_args)` or a keyword call `func(**kwargs)`. -/
inductive CallRec (α : Type) where
  | positional (args : List α)
  | keyword (kwargs : List (String × α))
deriving DecidableEq

/-- A registration target: either a concrete object of the external
system (identified by a numeric id) or a `DefferredTarget`
(`events.py` lines 123-127) wrapping a resolver that is called with the
arguments of the previous stage's firing (`events.py` lines 201-202). -/
inductive Tgt (α : Type) where
  | concrete (obj : Nat)
  | deferred (resolver : List α → Nat)

/-- Resolution of a registration target, as done by `_register_callback`:
`if isinstance(target, DefferredTarget): target = target(*args)`. -/
def Tgt.resolve : Tgt α → List α → Nat
  | .concrete o, _ => o
  | .deferred f, args => f args

/-- A Python callable used as a chain condition.  A Python function can be
invoked positionally (`condition(*args)`, `events.py` line 188) or with
keyword arguments (`condition(**kwargs)`, line 186), so both views are
carried. -/
structure CondFn (α : Type) where
  pos : List α → Bool
  kw : List (String × α) → Bool

/-- The state of an `EventListener` object (`events.py` lines 130-148):
the `(target, event-name)` stage list, the per-stage conditions, the two
flags, and `self.name`.  `self.func` is not stored because invocations of
it are recorded in the world trace instead. -/
structure Listener (α : Type) where
  targets : List (Tgt α × String)
  conditions : List (Option (CondFn α))
  use_kwargs : Bool
  once : Bool
  name : Option String

/-- Defunctionalised closures of the chain machinery: `reg i r` is the
`_register` closure of index `i` (`events.py` lines 194-216) whose
captured `arg_accum` list lives in heap cell `r`; `wrap r` is the
terminal `wrapper` closure (`events.py` lines 172-177) over the list in
cell `r`. -/
inductive Cb where
  | reg (i : Nat) (r : Nat)
  | wrap (r : Nat)
deriving DecidableEq

/-- One primitive subscription held by the external dispatch system:
`sa.event.listen(target, event, func, once=...)`. -/
structure Subscription where
  target : Nat
  event : String
  cb : Cb
  once : Bool
deriving DecidableEq

/-- The external dispatch system together with the Python heap of mutable
`arg_accum` lists and the trace of user-callback invocations. -/
structure World (α : Type) where
  heap : List (List α)
  subs : List Subscription
  calls : List (CallRec α)
deriving DecidableEq

def emptyWorld : World α := ⟨[], [], []⟩

/-- Allocation of a fresh Python list object. -/
def heapAlloc (w : World α) (xs : List α) : Nat × World α :=
  (w.heap.length, { w with heap := w.heap ++ [xs] })

/-- Reading the current contents of the list object in cell `r`. -/
def heapGet (w : World α) (r : Nat) : List α := w.heap.getD r []

/-- In-place mutation of the list object in cell `r` (Python `+=`). -/
def heapSet (w : World α) (r : Nat) (xs : List α) : World α :=
  { w with heap := w.heap.set r xs }

/-- The primitive `sa.event.listen(target, event, func, once=...)` of the
external dispatch system: appends one subscription. -/
def saListen (w : World α) (t : Nat) (e : String) (cb : Cb) (o : Bool) : World α :=
  { w with subs := w.subs ++ [⟨t, e, cb, o⟩] }

/-- The module-level `register` proxy (`events.py` lines 75-120): the four
synthetic event names are expanded into two or three primitive `listen`
calls with the same callback and the same once flag; any other event name is
passed to `listen` unchanged.  The function has no failure path and never
consults the event catalog. -/
def register (w : World α) (t : Nat) (e : String) (cb : Cb) (o : Bool) : World α :=
  if e = "after_save" then
    saListen (saListen w t "after_insert" cb o) t "after_update" cb o
  else if e = "before_save" then
    saListen (saListen w t "before_insert" cb o) t "before_update" cb o
  else if e = "after_touch" then
    saListen (saListen (saListen w t "after_insert" cb o) t "after_update" cb o)
      t "after_delete" cb o
  else if e = "before_touch" then
    saListen (saListen (saListen w t "before_insert" cb o) t "before_update" cb o)
      t "before_delete" cb o
  else
    saListen w t e cb o

/-- The sequence of primitive event names each `register` branch binds, in
call order. -/
def expandEvent (e : String) : List String :=
  if e = "after_save" then ["after_insert", "after_update"]
  else if e = "before_save" then ["before_insert", "before_update"]
  else if e = "after_touch" then ["after_insert", "after_update", "after_delete"]
  else if e = "before_touch" then ["before_insert", "before_update", "before_delete"]
  else [e]

/-- The method `_get_kwargs` (`events.py` lines 158-160): it builds
`dict(zip(arg_names, args))` where `arg_names` chains `evt.callback_args`
over `self.targets`.  Both `__init__` (line 139) and `chain` (line 232)
store the event *name* — a `str` — as the second component of each
`targets` entry, and `str` has no attribute `callback_args`, so computing
the first name raises `AttributeError`; only an empty `targets` list
would avoid the attribute access and yield an empty dict. -/
def getKwargs (l : Listener α) (args : List α) : Except PyErr (List (String × α)) :=
  match l.targets, args with
  | [], _ => .ok []
  | _ :: _, _ => .error .attributeError

/-- The method `_condition_met` (`events.py` lines 181-188). -/
def conditionMet (l : Listener α) (i : Nat) (args : List α) : Except PyErr Bool :=
  match l.conditions.get? i with
  | none => .error .indexError
  | some none => .ok true
  | some (some c) =>
    if l.use_kwargs then (getKwargs l args).map c.kw
    else .ok (c.pos args)

/-- Firing of the terminal `wrapper` closure (`events.py` lines 172-177)
whose captured list currently holds `accum`, with newly fired arguments
`args`: `all_args = arg_accum + list(args)` is a fresh list (the captured
cell is not mutated), and the invocation of `self.func` on it is recorded
in the trace. -/
def wrapperFire (l : Listener α) (accum args : List α) (w : World α) :
    Except PyErr (World α) :=
  let all_args := accum ++ args
  if l.use_kwargs then
    (getKwargs l all_args).map fun kws =>
      { w with calls := w.calls ++ [.keyword kws] }
  else
    .ok { w with calls := w.calls ++ [.positional all_args] }

/-- The method `_get_callback` (`events.py` lines 162-169).  The
defaulting `arg_accum = arg_accum or []` allocates a fresh empty list when
the argument is `None` (`r = none`) or an empty list; a non-empty list is
shared by reference. -/
def getCallback (l : Listener α) (i : Nat) (r : Option Nat) (w : World α) :
    Cb × World α :=
  let ref := match r with
    | none => heapAlloc w []
    | some r0 => if (heapGet w r0).isEmpty then heapAlloc w [] else (r0, w)
  if l.targets.length ≤ i then (Cb.wrap ref.1, ref.2) else (Cb.reg i ref.1, ref.2)

/-- Firing of the `_register` closure of index `i` (`events.py` lines
194-214) with newly fired arguments `args`: the captured `arg_accum` cell
is mutated in place (`arg_accum += list(args)`), the stage condition is
checked against the accumulated list, a deferred target is resolved with
the just-fired arguments only, and the next callback is registered with
`once = self.once or i > 0`.  A false condition returns silently after
the mutation. -/
def registerFire (l : Listener α) (i r : Nat) (args : List α) (w : World α) :
    Except PyErr (World α) := do
  let acc := heapGet w r ++ args
  let w1 := heapSet w r acc
  let met ← conditionMet l i acc
  if met then
    match l.targets.get? i with
    | none => .error .indexError
    | some (tgt, e) =>
      let t := tgt.resolve args
      let o := l.once || decide (0 < i)
      let cw := getCallback l (i + 1) (some r) w1
      .ok (register cw.2 t e cw.1 o)
  else
    .ok w1

/-- Invocation of a stored callback closure by the external dispatch
system. -/
def fireCb (l : Listener α) (cb : Cb) (args : List α) (w : World α) :
    Except PyErr (World α) :=
  match cb with
  | .reg i r => registerFire l i r args w
  | .wrap r => wrapperFire l (heapGet w r) args w

/-- The external dispatch system fires the subscription at index `k` with
arguments `args`; a subscription registered with `once=True` is removed
by the dispatch system as part of its firing. -/
def fireAt (l : Listener α) (k : Nat) (args : List α) (w : World α) :
    Except PyErr (World α) :=
  match w.subs.get? k with
  | none => .error .indexError
  | some s =>
    let w1 := if s.once then { w with subs := w.subs.eraseIdx k } else w
    fireCb l s.cb args w1

/-- Fires the most recently registered subscription: in a clean single
chain attempt this is exactly the pending stage of the chain. -/
def fireLast (l : Listener α) (args : List α) (w : World α) :
    Except PyErr (World α) :=
  fireAt l (w.subs.length - 1) args w

/-- Fires the pending subscription once per element of `argss`, in
order. -/
def runStages (l : Listener α) (argss : List (List α)) (w : World α) :
    Except PyErr (World α) :=
  match argss with
  | [] => .ok w
  | a :: rest => do
    let w1 ← fireLast l a w
    runStages l rest w1

/-- A user function object: its `__name__`, its behaviour when called
directly, and whether the `__listener__` attribute has been set on it. -/
structure Func (α : Type) where
  fname : String
  body : List α → Nat
  listener : Bool

/-- Python truthiness of `self.name` in `if not self.name:` — both `None`
and the empty string are falsy. -/
def pyFalsy : Option String → Bool
  | none => true
  | some s => s.isEmpty

/-- The method `EventListener.__call__` (`events.py` lines 218-224): take
the chain name from `func.__name__` when `self.name` is unset, set
`func.__listener__`, and immediately evaluate `self._get_callback(0)()`
— the stage-0 registration — before returning the same function
object. -/
def applyCall (l : Listener α) (f : Func α) (w : World α) :
    Listener α × Func α × Except PyErr (World α) :=
  let l1 := { l with name := if pyFalsy l.name then some f.fname else l.name }
  let f1 := { f with listener := true }
  let cw := getCallback l1 0 none w
  (l1, f1, fireCb l1 cw.1 [] cw.2)

/-- The constructor `EventListener.__init__` (`events.py` lines 131-148):
one initial stage, whose condition slot is `None`. -/
def mkListener (target : Tgt α) (event : String) (use_kwargs once : Bool) :
    Listener α :=
  { targets := [(target, event)], conditions := [none],
    use_kwargs := use_kwargs, once := once, name := none }

/-- The method `EventListener.chain` (`events.py` lines 226-234): appends
one stage and its condition slot. -/
def chainAdd (l : Listener α) (target : Tgt α) (event : String)
    (condition : Option (CondFn α)) : Listener α :=
  { l with targets := l.targets ++ [(target, event)],
           conditions := l.conditions ++ [condition] }

/-- The method `EventListener.remove` (`events.py` lines 236-238) iterates
`self.targets` and evaluates `sa.event.remove(target, identifier,
self._get_callback(i))`; the name `identifier` is bound nowhere in the
module (the loop variable is `event`), so the first loop iteration raises
`NameError` before any unregistration is performed.  Only an empty
`targets` list would skip the loop body. -/
def removeListener (l : Listener α) : Except PyErr Unit :=
  match l.targets with
  | [] => .ok ()
  | _ :: _ => .error .nameError

/-- Structural facts holding for every `EventListener` built through
`mkListener` and `chainAdd`: one condition slot per stage, a `None`
condition slot for stage 0, and at least one stage. -/
def wfListener (l : Listener α) : Prop :=
  l.conditions.length = l.targets.length ∧
  l.conditions.head? = some none ∧
  l.targets ≠ []

/-- Invariant of a clean single chain attempt: after stages `0..k-1` have
each fired once, the most recent subscription carries the compiled
callback for stage `k`, whose captured `arg_accum` cell holds the
arguments accumulated so far. -/
def chainInv (l : Listener α) (k : Nat) (acc : List α) (w : World α) : Prop :=
  ∃ pre t e o r,
    w.subs = pre ++ [⟨t, e,
      (if l.targets.length ≤ k + 1 then Cb.wrap r else Cb.reg (k+1) r), o⟩] ∧
    w.heap.get? r = some acc

/-- The stage conditions evaluate to true along the firing sequence
`argss` starting from accumulated arguments `acc` at stage `k`. -/
def condsOk (l : Listener α) : Nat → List α → List (List α) → Prop
  | _, _, [] => True
  | k, acc, a :: rest =>
    (k + 1 < l.targets.length → conditionMet l (k+1) (acc ++ a) = .ok true) ∧
    condsOk l (k+1) (acc ++ a) rest

/-! The event catalog (`events.py` lines 17-72). -/

/-- One member of an externally declared hook class, as seen through
`dir` and `inspect.signature`: its attribute name and the parameter names
of its signature in declared order. -/
structure Meth where
  mname : String
  params : List String
deriving DecidableEq

/-- An externally declared hook class: its declared `_dispatch_target`
type (as a numeric type tag) and its members. -/
structure HookClass where
  dispatch_target : Nat
  members : List Meth
deriving DecidableEq

/-- The record `EventInfo` (`events.py` lines 17-19): the dispatch-target
type of the hook (as a numeric type tag) and the ordered callback
argument names. -/
structure EventInfo where
  target_type : Nat
  callback_args : List String
deriving DecidableEq

/-- Python `str.startswith`, evaluated over the underlying character
lists. -/
def pyStartswith (s pre : String) : Bool := pre.data.isPrefixOf s.data

/-- The classmethod `EventInfo.from_event_class` (`events.py` lines
21-34): enumerate the members whose name does not start with an
underscore and is not `dispatch`, drop every signature parameter named
`self`, and map each member name to the class's `_dispatch_target`
together with the remaining parameter names.  `dir` yields each attribute
name at most once, so the dict built by the loop is the association list
of the filtered members. -/
def from_event_class (c : HookClass) : List (String × EventInfo) :=
  (c.members.filter fun m => !pyStartswith m.mname "_" && m.mname != "dispatch").map
    fun m => (m.mname, ⟨c.dispatch_target, m.params.filter (fun p => p != "self")⟩)

/-- Python dict lookup `d.get(k)` on the association-list model of an
insertion-ordered dict whose keys are unique. -/
def dlookup (d : List (String × β)) (k : String) : Option β :=
  (d.find? fun p => p.1 == k).map (fun p => p.2)

/-- Python dict assignment `d[k] = v`: overwrite in place when the key
exists, append otherwise. -/
def dinsert (d : List (String × β)) (k : String) (v : β) : List (String × β) :=
  if d.any fun p => p.1 == k then
    d.map fun p => if p.1 == k then (k, v) else p
  else d ++ [(k, v)]

/-- Python dict union `d1 | d2` (`events.py` lines 60-72): a copy of `d1`
updated with every entry of `d2` in order, the right operand winning on
duplicate keys. -/
def dunion (d1 d2 : List (String × β)) : List (String × β) :=
  d2.foldl (fun d p => dinsert d p.1 p.2) d1

/-- Python dict subscript `d[k]`: a missing key raises `KeyError`. -/
def catalogFind (d : List (String × β)) (k : String) : Except PyErr β :=
  match dlookup d k with
  | none => .error .keyError
  | some v => .ok v

/-- A numeric type tag standing for the class `sa.orm.Mapper`. -/
def mapperTag : Nat := 0

/-- The hand-declared synthetic descriptors `synthetic_mapper_events`
(`events.py` lines 54-59). -/
def synthetic_mapper_events : List (String × EventInfo) :=
  [("after_save", ⟨mapperTag, ["mapper", "connection", "target"]⟩),
   ("before_save", ⟨mapperTag, ["mapper", "connection", "target"]⟩),
   ("before_touch", ⟨mapperTag, ["mapper", "connection", "target"]⟩),
   ("after_touch", ⟨mapperTag, ["mapper", "connection", "target"]⟩)]

/-- The catalog `events` (`events.py` lines 60-72): the union of the
per-class tables — built by `EventInfo.from_event_class` over the
externally declared hook classes, abstracted here as the parameter
`external` — followed last by the hand-declared synthetic table. -/
def eventsCatalog (external : List (String × EventInfo)) :
    List (String × EventInfo) :=
  dunion external synthetic_mapper_events

/-- A two-stage positional chain
`EventListener(obj0, "e0").chain(obj1, "e1")`. -/
def lC2 : Listener Nat :=
  chainAdd (mkListener (Tgt.concrete 0) "e0" false false) (Tgt.concrete 1) "e1" none

/-- A concrete user callback function object. -/
def fC : Func Nat := ⟨"cb", fun _ => 0, false⟩

/-- A two-stage keyword-mode chain
`EventListener(obj0, "ev_a", use_kwargs=True).chain(obj1, "ev_c")`. -/
def lC3 : Listener Nat :=
  chainAdd (mkListener (Tgt.concrete 0) "ev_a" true false) (Tgt.concrete 1) "ev_c" none

/-- A two-stage keyword-mode chain whose stage-1 condition returns false
on every input. -/
def lC6 : Listener Nat :=
  chainAdd (mkListener (Tgt.concrete 0) "e0" true false) (Tgt.concrete 1) "e1"
    (some ⟨fun _ => false, fun _ => false⟩)

/-- A two-stage positional chain whose stage-1 condition returns false on
every input. -/
def lC6p : Listener Nat :=
  chainAdd (mkListener (Tgt.concrete 0) "e0" false false) (Tgt.concrete 1) "e1"
    (some ⟨fun _ => false, fun _ => false⟩)

/-! Small list helpers used by the chain-run proofs. -/

theorem get?_concat_self (pre : List β) (s : β) :
    (pre ++ [s]).get? pre.length = some s := by
  induction pre with
  | nil => rfl
  | cons x xs ih => simp [ih]

theorem eraseIdx_concat (pre : List β) (s : β) :
    (pre ++ [s]).eraseIdx pre.length = pre := by
  induction pre with
  | nil => rfl
  | cons x xs ih => simp [List.eraseIdx, ih]

theorem get?_set_self (xs : List β) (r : Nat) (x : β) (h : r < xs.length) :
    (xs.set r x).get? r = some x := by
  induction xs generalizing r with
  | nil => simp at h
  | cons y ys ih =>
    cases r with
    | zero => rfl
    | succ n => simpa using ih n (by simpa using h)

/-! Shape lemmas about the synthetic-event proxy `register`. -/

theorem register_subs (w : World α) (t : Nat) (e : String) (cb : Cb) (o : Bool) :
    (register w t e cb o).subs =
      w.subs ++ (expandEvent e).map (fun e' => ⟨t, e', cb, o⟩) := by
  unfold register expandEvent saListen
  split_ifs <;> simp

theorem register_heap (w : World α) (t : Nat) (e : String) (cb : Cb) (o : Bool) :
    (register w t e cb o).heap = w.heap := by
  unfold register saListen
  split_ifs <;> rfl

theorem register_calls (w : World α) (t : Nat) (e : String) (cb : Cb) (o : Bool) :
    (register w t e cb o).calls = w.calls := by
  unfold register saListen
  split_ifs <;> rfl

theorem register_last (w : World α) (t : Nat) (e : String) (cb : Cb) (o : Bool) :
    ∃ pre e', (register w t e cb o).subs = pre ++ [⟨t, e', cb, o⟩] := by
  unfold register saListen
  split_ifs
  · exact ⟨w.subs ++ [⟨t, "after_insert", cb, o⟩], "after_update", by simp⟩
  · exact ⟨w.subs ++ [⟨t, "before_insert", cb, o⟩], "before_update", by simp⟩
  · exact ⟨w.subs ++ [⟨t, "after_insert", cb, o⟩, ⟨t, "after_update", cb, o⟩],
      "after_delete", by simp⟩
  · exact ⟨w.subs ++ [⟨t, "before_insert", cb, o⟩, ⟨t, "before_update", cb, o⟩],
      "before_delete", by simp⟩
  · exact ⟨w.subs, e, by simp⟩

/-! Symbolic execution lemmas for one firing of a `_register` closure. -/

theorem getD_eq_of_get? (xs : List β) (r : Nat) (x d : β) (h : xs.get? r = some x) :
    xs.getD r d = x := by
  induction xs generalizing r with
  | nil => exact Option.noConfusion h
  | cons y ys ih =>
    cases r with
    | zero =>
      have h0 : some y = some x := h
      have : y = x := Option.some.inj h0
      simp [this]
    | succ n => simpa using ih n h

theorem getCallback_spec (l : Listener α) (i r : Nat) (w : World α) (acc : List α)
    (hr : w.heap.get? r = some acc) :
    ∃ r' w', getCallback l i (some r) w =
        ((if l.targets.length ≤ i then Cb.wrap r' else Cb.reg i r'), w') ∧
      w'.heap.get? r' = some acc ∧ w'.subs = w.subs ∧ w'.calls = w.calls := by
  have hgd : w.heap.getD r [] = acc := getD_eq_of_get? _ _ _ _ hr
  by_cases hE : (w.heap.getD r []).isEmpty
  · have hacc : acc = [] := by
      rw [hgd] at hE
      cases acc with
      | nil => rfl
      | cons z zs => simp [List.isEmpty] at hE
    refine ⟨w.heap.length, { w with heap := w.heap ++ [[]] }, ?_, ?_, rfl, rfl⟩
    · by_cases hi : l.targets.length ≤ i
      · simp [getCallback, heapGet, heapAlloc, hi]
        rw [if_pos hE]
        exact ⟨rfl, rfl⟩
      · simp [getCallback, heapGet, heapAlloc, hi]
        rw [if_pos hE]
        exact ⟨rfl, rfl⟩
    · rw [get?_concat_self, hacc]
  · refine ⟨r, w, ?_, hr, rfl, rfl⟩
    by_cases hi : l.targets.length ≤ i
    · simp [getCallback, heapGet, heapAlloc, hi]
      rw [if_neg hE]
      exact ⟨rfl, rfl⟩
    · simp [getCallback, heapGet, heapAlloc, hi]
      rw [if_neg hE]
      exact ⟨rfl, rfl⟩

theorem registerFire_ok (l : Listener α) (i r : Nat) (a acc : List α) (w : World α)
    (hg : heapGet w r = acc)
    (hc : conditionMet l i (acc ++ a) = .ok true)
    (tgt : Tgt α) (e : String)
    (ht : l.targets.get? i = some (tgt, e)) :
    registerFire l i r a w =
      .ok (register (getCallback l (i+1) (some r) (heapSet w r (acc ++ a))).2
        (tgt.resolve a) e
        (getCallback l (i+1) (some r) (heapSet w r (acc ++ a))).1
        (l.once || decide (0 < i))) := by
  unfold registerFire
  rw [hg]
  simp only [hc, ht]
  rfl

theorem registerFire_abandoned (l : Listener α) (i r : Nat) (a : List α) (w : World α)
    (hc : conditionMet l i (heapGet w r ++ a) = .ok false) :
    registerFire l i r a w = .ok (heapSet w r (heapGet w r ++ a)) := by
  unfold registerFire
  simp only [hc]
  rfl

/-! The single-attempt chain run: invariant and step lemmas. -/

theorem wfListener_mk (target : Tgt α) (event : String) (uk o : Bool) :
    wfListener (mkListener target event uk o) :=
  ⟨rfl, rfl, by simp [mkListener]⟩

theorem wfListener_chainAdd (l : Listener α) (target : Tgt α) (event : String)
    (c : Option (CondFn α)) (h : wfListener l) :
    wfListener (chainAdd l target event c) := by
  obtain ⟨h1, h2, h3⟩ := h
  refine ⟨by simp [chainAdd, h1], ?_, by simp [chainAdd]⟩
  cases hc : l.conditions with
  | nil => rw [hc] at h2; exact Option.noConfusion h2
  | cons c0 cs =>
    rw [hc] at h2
    simp [chainAdd, hc]
    exact Option.some.inj h2

theorem condsOk_of_append (l : Listener α) :
    ∀ (p q : List (List α)) (k : Nat) (acc : List α),
    condsOk l k acc (p ++ q) → condsOk l k acc p := by
  intro p
  induction p with
  | nil => intro q k acc _; trivial
  | cons a rest ih =>
    intro q k acc h
    exact ⟨h.1, ih q (k+1) (acc ++ a) h.2⟩

/-- One non-terminal firing: the pending `_register` closure fires,
extends the accumulator, and registers the next stage. -/
theorem fireLast_step (l : Listener α) (k : Nat) (acc a : List α) (w : World α)
    (hinv : chainInv l k acc w)
    (hk : k + 1 < l.targets.length)
    (hc : conditionMet l (k+1) (acc ++ a) = .ok true) :
    ∃ w', fireLast l a w = .ok w' ∧ w'.calls = w.calls ∧
      chainInv l (k+1) (acc ++ a) w' := by
  obtain ⟨pre, t, e, o, r, hsubs, hheap⟩ := hinv
  rw [if_neg (Nat.not_le_of_lt hk)] at hsubs
  have hlen : w.subs.length - 1 = pre.length := by
    rw [hsubs]
    simp
  have hget : w.subs.get? (w.subs.length - 1) =
      some ⟨t, e, Cb.reg (k+1) r, o⟩ := by
    rw [hlen, hsubs]
    exact get?_concat_self _ _
  obtain ⟨hrlt, -⟩ := List.get?_eq_some.mp hheap
  have hfa : fireLast l a w = registerFire l (k+1) r a
      (if o then { w with subs := w.subs.eraseIdx (w.subs.length - 1) } else w) := by
    unfold fireLast fireAt
    rw [hget]
    rfl
  set w1 := if o then { w with subs := w.subs.eraseIdx (w.subs.length - 1) } else w
    with hw1
  have hw1heap : w1.heap = w.heap := by
    rw [hw1]
    split <;> rfl
  have hw1calls : w1.calls = w.calls := by
    rw [hw1]
    split <;> rfl
  have hg : heapGet w1 r = acc := by
    unfold heapGet
    rw [hw1heap]
    exact getD_eq_of_get? _ _ _ _ hheap
  have ht0 := List.get?_eq_get (l := l.targets) hk
  rcases hp : l.targets.get ⟨k+1, hk⟩ with ⟨tgt, e1⟩
  rw [hp] at ht0
  have hfeq := registerFire_ok l (k+1) r a acc w1 hg hc tgt e1 ht0
  have hr2 : (heapSet w1 r (acc ++ a)).heap.get? r = some (acc ++ a) := by
    unfold heapSet
    exact get?_set_self _ _ _ (by rw [hw1heap]; exact hrlt)
  obtain ⟨r2, w3, hgc, hr3, hsubs3, hcalls3⟩ :=
    getCallback_spec l (k+1+1) r (heapSet w1 r (acc ++ a)) (acc ++ a) hr2
  rw [hgc] at hfeq
  obtain ⟨pre2, e2, hlast⟩ := register_last w3 (tgt.resolve a) e1
    (if l.targets.length ≤ k+1+1 then Cb.wrap r2 else Cb.reg (k+1+1) r2)
    (l.once || decide (0 < k+1))
  refine ⟨_, by rw [hfa, hfeq], ?_, ?_⟩
  · rw [register_calls, hcalls3]
    unfold heapSet
    exact hw1calls
  · exact ⟨pre2, tgt.resolve a, e2, l.once || decide (0 < k+1), r2, hlast,
      by rw [register_heap]; exact hr3⟩

/-- The terminal firing: the pending `wrapper` closure fires and the user
callback is invoked positionally with the accumulated arguments followed
by the newly fired ones. -/
theorem fireLast_term (l : Listener α) (k : Nat) (acc a : List α) (w : World α)
    (hkw : l.use_kwargs = false)
    (hinv : chainInv l k acc w)
    (hk : l.targets.length ≤ k + 1) :
    ∃ w', fireLast l a w = .ok w' ∧
      w'.calls = w.calls ++ [.positional (acc ++ a)] := by
  obtain ⟨pre, t, e, o, r, hsubs, hheap⟩ := hinv
  rw [if_pos hk] at hsubs
  have hlen : w.subs.length - 1 = pre.length := by
    rw [hsubs]
    simp
  have hget : w.subs.get? (w.subs.length - 1) = some ⟨t, e, Cb.wrap r, o⟩ := by
    rw [hlen, hsubs]
    exact get?_concat_self _ _
  have hfa : fireLast l a w = wrapperFire l
      (heapGet (if o then { w with subs := w.subs.eraseIdx (w.subs.length - 1) }
        else w) r) a
      (if o then { w with subs := w.subs.eraseIdx (w.subs.length - 1) } else w) := by
    unfold fireLast fireAt
    rw [hget]
    rfl
  set w1 := if o then { w with subs := w.subs.eraseIdx (w.subs.length - 1) } else w
    with hw1
  have hw1heap : w1.heap = w.heap := by
    rw [hw1]
    split <;> rfl
  have hw1calls : w1.calls = w.calls := by
    rw [hw1]
    split <;> rfl
  have hg : heapGet w1 r = acc := by
    unfold heapGet
    rw [hw1heap]
    exact getD_eq_of_get? _ _ _ _ hheap
  refine ⟨{ w1 with calls := w1.calls ++ [.positional (acc ++ a)] }, ?_, by
    simp [hw1calls]⟩
  rw [hfa, hg]
  unfold wrapperFire
  rw [hkw]
  rfl

/-- Running the remaining non-terminal stages preserves the invariant and
performs no user-callback invocation. -/
theorem runStages_mid (l : Listener α) :
    ∀ (argss : List (List α)) (k : Nat) (acc : List α) (w : World α),
    chainInv l k acc w →
    condsOk l k acc argss →
    k + argss.length < l.targets.length →
    ∃ w', runStages l argss w = .ok w' ∧ w'.calls = w.calls ∧
      chainInv l (k + argss.length) (acc ++ argss.flatten) w' := by
  intro argss
  induction argss with
  | nil =>
    intro k acc w hinv _ _
    refine ⟨w, rfl, rfl, ?_⟩
    have hn : k + ([] : List (List α)).length = k := rfl
    have hacc2 : acc ++ ([] : List (List α)).flatten = acc := by simp
    rw [hn, hacc2]
    exact hinv
  | cons a rest ih =>
    intro k acc w hinv hcond hlt
    have hk : k + 1 < l.targets.length := by
      have : k + 1 ≤ k + (a :: rest).length := by
        simp [Nat.add_le_add_left]
      exact Nat.lt_of_le_of_lt this hlt
    obtain ⟨w1, hw1, hcalls1, hinv1⟩ :=
      fireLast_step l k acc a w hinv hk (hcond.1 hk)
    obtain ⟨w2, hw2, hcalls2, hinv2⟩ :=
      ih (k+1) (acc ++ a) w1 hinv1 hcond.2
        (by simp only [List.length_cons] at hlt; omega)
    refine ⟨w2, ?_, by rw [hcalls2, hcalls1], ?_⟩
    · unfold runStages
      rw [hw1]
      exact hw2
    · have hn : k + (a :: rest).length = k + 1 + rest.length := by
        simp only [List.length_cons]
        omega
      have hacc2 : acc ++ (a :: rest).flatten = acc ++ a ++ rest.flatten := by
        simp
      rw [hn, hacc2]
      exact hinv2

/-- A full clean run of the remaining stages: the user callback is invoked
exactly once, at the last firing, with all accumulated arguments. -/
theorem runStages_full (l : Listener α) :
    ∀ (argss : List (List α)) (k : Nat) (acc : List α) (w : World α),
    l.use_kwargs = false →
    chainInv l k acc w →
    condsOk l k acc argss →
    k + argss.length = l.targets.length →
    argss ≠ [] →
    ∃ w', runStages l argss w = .ok w' ∧
      w'.calls = w.calls ++ [.positional (acc ++ argss.flatten)] := by
  intro argss
  induction argss with
  | nil => intro _ _ _ _ _ _ _ hne; exact absurd rfl hne
  | cons a rest ih =>
    intro k acc w hkw hinv hcond hlen _
    cases rest with
    | nil =>
      have hk : l.targets.length ≤ k + 1 := by
        simp at hlen
        omega
      obtain ⟨w1, hw1, hcalls1⟩ := fireLast_term l k acc a w hkw hinv hk
      refine ⟨w1, ?_, by simpa using hcalls1⟩
      unfold runStages
      rw [hw1]
      rfl
    | cons b rest2 =>
      have hlen2 : k + 1 + (b :: rest2).length = l.targets.length := by
        simp only [List.length_cons] at hlen ⊢
        omega
      have hk : k + 1 < l.targets.length := by
        simp only [List.length_cons] at hlen2
        omega
      obtain ⟨w1, hw1, hcalls1, hinv1⟩ :=
        fireLast_step l k acc a w hinv hk (hcond.1 hk)
      obtain ⟨w2, hw2, hcalls2⟩ :=
        ih (k+1) (acc ++ a) w1 hkw hinv1 hcond.2 hlen2 (by simp)
      refine ⟨w2, ?_, ?_⟩
      · unfold runStages
        rw [hw1]
        exact hw2
      · rw [hcalls2, hcalls1]
        simp


/-- Stage-0 registration performed by `__call__`: evaluating
`self._get_callback(0)()` on a fresh world registers the initial stage
immediately, with `once = self.once`, and compiles the stage-1 callback
over a fresh empty accumulator cell. -/
theorem applyCall_start (tg : Tgt α) (e0 : String) (rest : List (Tgt α × String))
    (crest : List (Option (CondFn α))) (uk o : Bool) (nm : Option String)
    (f : Func α) :
    (applyCall ⟨(tg, e0) :: rest, none :: crest, uk, o, nm⟩ f emptyWorld).2.2 =
      .ok (register (⟨[[], []], [], []⟩ : World α) (tg.resolve []) e0
        (if ((tg, e0) :: rest).length ≤ 1 then Cb.wrap 1 else Cb.reg 1 1) o) := by
  cases rest <;> cases o <;> rfl

theorem getCallback_subs (l : Listener α) (i : Nat) (rr : Option Nat) (w : World α) :
    (getCallback l i rr w).2.subs = w.subs := by
  unfold getCallback heapAlloc heapGet
  rcases rr with - | r0
  · dsimp only
    split <;> rfl
  · dsimp only
    split <;> split <;> rfl

/-- Any successful firing of a `_register` closure only appends
subscriptions; when `i ≥ 1` every appended subscription is single-shot
(`once = self.once or i > 0` with `i > 0`). -/
theorem registerFire_once (l : Listener α) (i r : Nat) (a : List α) (w w' : World α)
    (hi : 1 ≤ i) (h : registerFire l i r a w = .ok w') :
    ∃ tail, w'.subs = w.subs ++ tail ∧ ∀ s ∈ tail, s.once = true := by
  unfold registerFire at h
  dsimp only at h
  rcases hcm : conditionMet l i (heapGet w r ++ a) with e | b
  · rw [hcm] at h
    exact Except.noConfusion h
  · rw [hcm] at h
    cases b with
    | false =>
      refine ⟨[], ?_, by intro s hs; exact absurd hs (List.not_mem_nil s)⟩
      have : w' = heapSet w r (heapGet w r ++ a) := by
        exact (Except.ok.inj h).symm
      rw [this]
      simp [heapSet]
    | true =>
      rcases hti : l.targets.get? i with - | te
      · rw [hti] at h
        exact Except.noConfusion h
      · rcases te with ⟨tgt, e⟩
        rw [hti] at h
        have hw' : w' = register
            (getCallback l (i+1) (some r) (heapSet w r (heapGet w r ++ a))).2
            (tgt.resolve a) e
            (getCallback l (i+1) (some r) (heapSet w r (heapGet w r ++ a))).1
            (l.once || decide (0 < i)) := (Except.ok.inj h).symm
        have hdec : decide (0 < i) = true :=
          decide_eq_true (Nat.lt_of_lt_of_le Nat.zero_lt_one hi)
        refine ⟨(expandEvent e).map
          (fun e' => ⟨tgt.resolve a, e',
            (getCallback l (i+1) (some r) (heapSet w r (heapGet w r ++ a))).1,
            l.once || decide (0 < i)⟩), ?_, ?_⟩
        · rw [hw', register_subs, getCallback_subs]
          rfl
        · intro s hs
          obtain ⟨e', _, hse⟩ := List.mem_map.mp hs
          rw [← hse]
          simp [hdec]

/-- Any successful firing of a `_register` closure leaves the existing
subscription list as a prefix: it can only append. -/
theorem registerFire_subs_ext (l : Listener α) (i r : Nat) (a : List α)
    (w w' : World α) (h : registerFire l i r a w = .ok w') :
    ∃ tail, w'.subs = w.subs ++ tail := by
  unfold registerFire at h
  dsimp only at h
  rcases hcm : conditionMet l i (heapGet w r ++ a) with e | b
  · rw [hcm] at h
    exact Except.noConfusion h
  · rw [hcm] at h
    cases b with
    | false =>
      refine ⟨[], ?_⟩
      have : w' = heapSet w r (heapGet w r ++ a) := (Except.ok.inj h).symm
      rw [this]
      simp [heapSet]
    | true =>
      rcases hti : l.targets.get? i with - | te
      · rw [hti] at h
        exact Except.noConfusion h
      · rcases te with ⟨tgt, e⟩
        rw [hti] at h
        have hw' : w' = register
            (getCallback l (i+1) (some r) (heapSet w r (heapGet w r ++ a))).2
            (tgt.resolve a) e
            (getCallback l (i+1) (some r) (heapSet w r (heapGet w r ++ a))).1
            (l.once || decide (0 < i)) := (Except.ok.inj h).symm
        refine ⟨(expandEvent e).map
          (fun e' => ⟨tgt.resolve a, e',
            (getCallback l (i+1) (some r) (heapSet w r (heapGet w r ++ a))).1,
            l.once || decide (0 < i)⟩), ?_⟩
        rw [hw', register_subs, getCallback_subs]
        rfl

theorem find?_map_replace_self (d : List (String × β)) (k : String) (v : β)
    (hmem : (d.any fun p => p.1 == k) = true) :
    ((d.map fun p => if p.1 == k then (k, v) else p).find? fun p => p.1 == k) =
      some (k, v) := by
  induction d with
  | nil => simp at hmem
  | cons q d ih =>
    rw [List.any_cons] at hmem
    simp only [List.map_cons]
    by_cases hq : (q.1 == k) = true
    · rw [if_pos hq, List.find?_cons]
      simp
    · rw [Bool.not_eq_true] at hq
      rw [if_neg (by simp [hq]), List.find?_cons, hq]
      rw [hq, Bool.false_or] at hmem
      exact ih hmem

theorem find?_map_replace_ne (d : List (String × β)) (k k' : String) (v : β)
    (hne : k' ≠ k) :
    ((d.map fun p => if p.1 == k then (k, v) else p).find? fun p => p.1 == k') =
      d.find? fun p => p.1 == k' := by
  induction d with
  | nil => rfl
  | cons q d ih =>
    simp only [List.map_cons]
    by_cases hq : (q.1 == k) = true
    · have hqk : q.1 = k := eq_of_beq hq
      have h1 : (k == k') = false := by
        simp only [beq_eq_false_iff_ne]
        exact fun h => hne h.symm
      rw [if_pos hq]
      simp only [List.find?_cons, hqk, h1]
      exact ih
    · rw [Bool.not_eq_true] at hq
      rw [if_neg (by simp [hq])]
      simp only [List.find?_cons]
      by_cases hk2 : (q.1 == k') = true
      · simp [hk2]
      · rw [Bool.not_eq_true] at hk2
        simp only [hk2]
        exact ih

/-- Lookup after one dict assignment: the assigned key maps to the new
value, every other key is unaffected. -/
theorem dlookup_dinsert (d : List (String × β)) (k k' : String) (v : β) :
    dlookup (dinsert d k v) k' = if k' = k then some v else dlookup d k' := by
  unfold dinsert dlookup
  by_cases hmem : (d.any fun p => p.1 == k) = true
  · rw [if_pos hmem]
    by_cases hk : k' = k
    · rw [if_pos hk, hk, find?_map_replace_self d k v hmem]
      rfl
    · rw [if_neg hk, find?_map_replace_ne d k k' v hk]
  · rw [if_neg hmem]
    have hnone : (d.find? fun p => p.1 == k) = none := by
      rw [List.find?_eq_none]
      intro p hp hbeq
      exact hmem (List.any_eq_true.mpr ⟨p, hp, hbeq⟩)
    by_cases hk : k' = k
    · rw [if_pos hk, hk, List.find?_append, hnone, Option.none_or]
      rw [List.find?_cons]
      simp
    · rw [if_neg hk, List.find?_append]
      have h2 : (([(k, v)] : List (String × β)).find? fun p => p.1 == k') =
          none := by
        rw [List.find?_cons]
        have : (k == k') = false := by
          simp only [beq_eq_false_iff_ne]
          exact fun h => hk h.symm
        rw [this]
        rfl
      rw [h2]
      cases hd : d.find? fun p => p.1 == k' <;> rfl

/-- Merging with `|` leaves keys absent from the right operand at the
left operand's value. -/
theorem dlookup_dunion_left (d1 : List (String × β)) :
    ∀ (d2 : List (String × β)) (k : String),
    dlookup d2 k = none →
    dlookup (dunion d1 d2) k = dlookup d1 k := by
  intro d2
  induction d2 generalizing d1 with
  | nil => intro k _; rfl
  | cons p rest ih =>
    intro k h
    have hkp : k ≠ p.1 := by
      intro hk
      unfold dlookup at h
      rw [List.find?_cons_of_pos _ (by simp [hk])] at h
      exact Option.noConfusion h
    have hrest : dlookup rest k = none := by
      unfold dlookup at h ⊢
      rw [List.find?_cons_of_neg _ (by simp; exact fun hh => hkp hh.symm)] at h
      exact h
    show dlookup (dunion (dinsert d1 p.1 p.2) rest) k = dlookup d1 k
    rw [ih (dinsert d1 p.1 p.2) k hrest, dlookup_dinsert, if_neg hkp]

/-- Merging with `|` is last-registered-wins: a key present in the right
operand takes the right operand's value. -/
theorem dlookup_dunion_right (d1 : List (String × β)) :
    ∀ (d2 : List (String × β)) (k : String) (v : β),
    (d2.map fun p => p.1).Nodup →
    dlookup d2 k = some v →
    dlookup (dunion d1 d2) k = some v := by
  intro d2
  induction d2 generalizing d1 with
  | nil => intro k v _ h; exact Option.noConfusion h
  | cons p rest ih =>
    intro k v hnd h
    rw [List.map_cons, List.nodup_cons] at hnd
    by_cases hk : k = p.1
    · have hv : p.2 = v := by
        unfold dlookup at h
        rw [List.find?_cons_of_pos _ (by simp [hk])] at h
        simpa using h
      have hfr : (rest.find? fun q => q.1 == k) = none := by
        rw [List.find?_eq_none]
        intro q hq hbeq
        exact hnd.1 (List.mem_map.mpr ⟨q, hq, by rw [eq_of_beq hbeq, hk]⟩)
      have habs : dlookup rest k = none := by
        unfold dlookup
        rw [hfr]
        rfl
      show dlookup (dunion (dinsert d1 p.1 p.2) rest) k = some v
      rw [dlookup_dunion_left (dinsert d1 p.1 p.2) rest k habs]
      rw [dlookup_dinsert, if_pos hk, hv]
    · have hrest : dlookup rest k = some v := by
        unfold dlookup at h ⊢
        rw [List.find?_cons_of_neg _ (by simp; exact fun hh => hk hh.symm)] at h
        exact h
      exact ih (dinsert d1 p.1 p.2) k v hnd.2 hrest

theorem from_event_class_lookup (dt : Nat) :
    ∀ (ms : List Meth) (m : Meth),
    (ms.map Meth.mname).Nodup →
    m ∈ ms →
    pyStartswith m.mname "_" = false →
    m.mname ≠ "dispatch" →
    dlookup (from_event_class ⟨dt, ms⟩) m.mname =
      some ⟨dt, m.params.filter (fun p => p != "self")⟩ := by
  intro ms
  induction ms with
  | nil => intro m _ hm; exact absurd hm (List.not_mem_nil m)
  | cons q rest ih =>
    intro m hnd hm hpub hdsp
    rw [List.map_cons, List.nodup_cons] at hnd
    unfold from_event_class at ih ⊢
    simp only [List.filter_cons]
    rcases List.mem_cons.mp hm with rfl | hq
    · have hf : (!pyStartswith m.mname "_" && m.mname != "dispatch") = true := by
        rw [hpub]
        simp [hdsp]
      rw [if_pos hf]
      simp only [List.map_cons]
      unfold dlookup
      rw [List.find?_cons_of_pos _ (by simp)]
      rfl
    · have htail : dlookup
          ((rest.filter fun m => !pyStartswith m.mname "_" && m.mname != "dispatch").map
            fun m => (m.mname,
              (⟨dt, m.params.filter fun p => p != "self"⟩ : EventInfo))) m.mname =
          some ⟨dt, m.params.filter (fun p => p != "self")⟩ :=
        ih m hnd.2 hq hpub hdsp
      by_cases hf : (!pyStartswith q.mname "_" && q.mname != "dispatch") = true
      · rw [if_pos hf]
        simp only [List.map_cons]
        unfold dlookup at htail ⊢
        have hne : (q.mname == m.mname) = false := by
          rw [beq_eq_false_iff_ne]
          intro hh
          apply hnd.1
          rw [hh]
          exact List.mem_map.mpr ⟨m, hq, rfl⟩
        rw [List.find?_cons_of_neg _ (by simp [hne])]
        exact htail
      · rw [if_neg hf]
        exact htail

theorem from_event_class_private (c : HookClass) (k : String)
    (h : pyStartswith k "_" = true ∨ k = "dispatch") :
    dlookup (from_event_class c) k = none := by
  unfold dlookup from_event_class
  have hfind : ((c.members.filter fun m =>
      !pyStartswith m.mname "_" && m.mname != "dispatch").map
        fun m => (m.mname,
          (⟨c.dispatch_target, m.params.filter fun p => p != "self"⟩ : EventInfo))).find?
      (fun p => p.1 == k) = none := by
    rw [List.find?_eq_none]
    intro p hp hbeq
    obtain ⟨m, hmf, hg⟩ := List.mem_map.mp hp
    obtain ⟨-, hf⟩ := List.mem_filter.mp hmf
    have hk : m.mname = k := by
      rw [← hg] at hbeq
      exact eq_of_beq hbeq
    rw [Bool.and_eq_true] at hf
    rcases h with h1 | h2
    · have := hf.1
      rw [Bool.not_eq_eq_eq_not] at this
      rw [hk, h1] at this
      exact Bool.noConfusion this
    · have := hf.2
      rw [bne_iff_ne] at this
      rw [hk] at this
      exact this h2
  rw [hfind]
  rfl

theorem filter_self_not_mem (ps : List String) (hs : "self" ∉ ps) :
    ps.filter (fun p => p != "self") = ps := by
  rw [List.filter_eq_self]
  intro a ha
  rw [bne_iff_ne]
  intro h
  rw [h] at ha
  exact hs ha

theorem filter_self_leading (ps : List String) (hs : "self" ∉ ps) :
    ("self" :: ps).filter (fun p => p != "self") = ps := by
  rw [List.filter_cons, if_neg (by simp)]
  exact filter_self_not_mem ps hs

theorem wrapperFire_subs (l : Listener α) (acc a : List α) (w w' : World α)
    (h : wrapperFire l acc a w = .ok w') : w'.subs = w.subs := by
  unfold wrapperFire at h
  dsimp only at h
  cases hkw : l.use_kwargs with
  | false =>
    rw [hkw] at h
    rw [if_neg (by simp)] at h
    rw [← Except.ok.inj h]
  | true =>
    rw [hkw, if_pos rfl] at h
    cases hg : getKwargs l (acc ++ a) with
    | error e =>
      rw [hg] at h
      exact Except.noConfusion h
    | ok kws =>
      rw [hg] at h
      have := Except.ok.inj h
      rw [← this]

/-- C1: for every chain of N stages registered via the final apply step
(in positional mode, with every stage condition passing), the user
callback runs only after exactly N external-dispatch firings, one per
stage in order: running any strict prefix of the firing sequence invokes
the callback zero times, and the N-th firing invokes it exactly once with
the concatenation of every stage's fired arguments, left to right in
stage order. -/
theorem chain_requires_n_firings (α : Type) (tg : Tgt α) (e0 : String)
    (rest : List (Tgt α × String)) (crest : List (Option (CondFn α)))
    (o : Bool) (nm : Option String) (f : Func α) (argss : List (List α))
    (hlen : argss.length = ((tg, e0) :: rest).length)
    (hcond : condsOk ⟨(tg, e0) :: rest, none :: crest, false, o, nm⟩ 0 [] argss) :
    ∃ w0, (applyCall ⟨(tg, e0) :: rest, none :: crest, false, o, nm⟩ f
        emptyWorld).2.2 = .ok w0 ∧
      (∀ p q, argss = p ++ q → q ≠ [] →
        ∃ wp, runStages ⟨(tg, e0) :: rest, none :: crest, false, o, nm⟩ p w0 =
          .ok wp ∧ wp.calls = []) ∧
      (∃ wN, runStages ⟨(tg, e0) :: rest, none :: crest, false, o, nm⟩ argss w0 =
        .ok wN ∧ wN.calls = [.positional argss.flatten]) := by
  have h0 := applyCall_start tg e0 rest crest false o nm f
  set l0 : Listener α := ⟨(tg, e0) :: rest, none :: crest, false, o, nm⟩ with hl0
  set w0 : World α := register (⟨[[], []], [], []⟩ : World α) (tg.resolve []) e0
    (if ((tg, e0) :: rest).length ≤ 1 then Cb.wrap 1 else Cb.reg 1 1) o with hw0
  have hw0calls : w0.calls = [] := by rw [hw0, register_calls]
  have hinv : chainInv l0 0 [] w0 := by
    obtain ⟨pre2, e2, hlast⟩ := register_last (⟨[[], []], [], []⟩ : World α)
      (tg.resolve []) e0
      (if ((tg, e0) :: rest).length ≤ 1 then Cb.wrap 1 else Cb.reg 1 1) o
    refine ⟨pre2, tg.resolve [], e2, o, 1, ?_, ?_⟩
    · rw [hw0]
      exact hlast
    · rw [hw0, register_heap]
      rfl
  refine ⟨w0, h0, ?_, ?_⟩
  · intro p q hpq hq
    have hplen : 0 + p.length < ((tg, e0) :: rest).length := by
      have hsum : p.length + q.length = ((tg, e0) :: rest).length := by
        rw [← List.length_append, ← hpq]
        exact hlen
      cases q with
      | nil => exact absurd rfl hq
      | cons b qs =>
        simp only [List.length_cons] at hsum ⊢
        omega
    obtain ⟨wp, hwp, hcalls, -⟩ := runStages_mid l0 p 0 [] w0 hinv
      (condsOk_of_append l0 p q 0 [] (hpq ▸ hcond)) hplen
    exact ⟨wp, hwp, by rw [hcalls, hw0calls]⟩
  · have hne : argss ≠ [] := by
      intro h
      rw [h] at hlen
      simp at hlen
    obtain ⟨wN, hwN, hcalls⟩ := runStages_full l0 argss 0 [] w0 rfl hinv hcond
      (by rw [hlen]; exact Nat.zero_add _) hne
    refine ⟨wN, hwN, ?_⟩
    rw [hcalls, hw0calls]
    simp

theorem chain_requires_n_firings_witness :
    ([[1], [2]] : List (List Nat)).length =
      ([((Tgt.concrete 0 : Tgt Nat), "e0"), (Tgt.concrete 1, "e1")]).length ∧
    condsOk (⟨[(Tgt.concrete 0, "e0"), (Tgt.concrete 1, "e1")],
      [none, none], false, false, none⟩ : Listener Nat) 0 [] [[1], [2]] ∧
    (∃ w0, (applyCall (⟨[(Tgt.concrete 0, "e0"), (Tgt.concrete 1, "e1")],
        [none, none], false, false, none⟩ : Listener Nat) fC
        emptyWorld).2.2 = .ok w0 ∧
      (∀ p q, ([[1], [2]] : List (List Nat)) = p ++ q → q ≠ [] →
        ∃ wp, runStages (⟨[(Tgt.concrete 0, "e0"), (Tgt.concrete 1, "e1")],
          [none, none], false, false, none⟩ : Listener Nat) p w0 =
          .ok wp ∧ wp.calls = []) ∧
      (∃ wN, runStages (⟨[(Tgt.concrete 0, "e0"), (Tgt.concrete 1, "e1")],
        [none, none], false, false, none⟩ : Listener Nat) [[1], [2]] w0 =
        .ok wN ∧ wN.calls = [.positional ([[1], [2]] : List (List Nat)).flatten])) :=
  ⟨rfl, ⟨fun _ => rfl, fun h => absurd h (by decide), trivial⟩,
    chain_requires_n_firings Nat (Tgt.concrete 0) "e0" [(Tgt.concrete 1, "e1")]
      [none] false none fC [[1], [2]] rfl
      ⟨fun _ => rfl, fun h => absurd h (by decide), trivial⟩⟩

/-- C2 (refuting the independence claim, as the code behaves): two
firings of stage 0 of a non-once chain run the same `_register` closure
and mutate the same `arg_accum` list, so the arguments of the second
attempt leak into the first attempt's terminal callback: after firing
stage 0 with `[1]` and again with `[2]`, firing the first attempt's
stage-1 subscription with `[99]` invokes the callback with
`[1, 2, 99]` instead of `[1, 99]`. -/
theorem attempts_share_accumulator :
    (applyCall lC2 fC emptyWorld).2.2 =
      .ok ⟨[[], []], [⟨0, "e0", Cb.reg 1 1, false⟩], []⟩ ∧
    fireAt lC2 0 [1] ⟨[[], []], [⟨0, "e0", Cb.reg 1 1, false⟩], []⟩ =
      .ok ⟨[[], [1]], [⟨0, "e0", Cb.reg 1 1, false⟩,
        ⟨1, "e1", Cb.wrap 1, true⟩], []⟩ ∧
    fireAt lC2 0 [2] ⟨[[], [1]], [⟨0, "e0", Cb.reg 1 1, false⟩,
        ⟨1, "e1", Cb.wrap 1, true⟩], []⟩ =
      .ok ⟨[[], [1, 2]], [⟨0, "e0", Cb.reg 1 1, false⟩,
        ⟨1, "e1", Cb.wrap 1, true⟩, ⟨1, "e1", Cb.wrap 1, true⟩], []⟩ ∧
    fireAt lC2 1 [99] ⟨[[], [1, 2]], [⟨0, "e0", Cb.reg 1 1, false⟩,
        ⟨1, "e1", Cb.wrap 1, true⟩, ⟨1, "e1", Cb.wrap 1, true⟩], []⟩ =
      .ok ⟨[[], [1, 2]], [⟨0, "e0", Cb.reg 1 1, false⟩,
        ⟨1, "e1", Cb.wrap 1, true⟩], [.positional [1, 2, 99]]⟩ :=
  ⟨rfl, rfl, rfl, rfl⟩

/-- C3 (the keyword-mode bug, as the code behaves): on a two-stage
keyword-mode chain, the two stage firings accumulate the values
`[1, 2]` then `[3]`, but the terminal firing raises `AttributeError`
inside `_get_kwargs` — the stored event-name strings have no
`callback_args` — instead of invoking the callback with the zipped
keyword arguments. -/
theorem kwargs_zip_attribute_error :
    (applyCall lC3 fC emptyWorld).2.2 =
      .ok ⟨[[], []], [⟨0, "ev_a", Cb.reg 1 1, false⟩], []⟩ ∧
    fireAt lC3 0 [1, 2] ⟨[[], []], [⟨0, "ev_a", Cb.reg 1 1, false⟩], []⟩ =
      .ok ⟨[[], [1, 2]], [⟨0, "ev_a", Cb.reg 1 1, false⟩,
        ⟨1, "ev_c", Cb.wrap 1, true⟩], []⟩ ∧
    fireAt lC3 1 [3] ⟨[[], [1, 2]], [⟨0, "ev_a", Cb.reg 1 1, false⟩,
        ⟨1, "ev_c", Cb.wrap 1, true⟩], []⟩ = .error .attributeError :=
  ⟨rfl, rfl, rfl⟩

/-- C4: `register` installs exactly the two insert/update primitive
subscriptions for a "save" composite, exactly the three
insert/update/delete ones for a "touch" composite — each with the
identical callback and the same once flag — and registers any
non-composite event name exactly once under its own name, unchanged. -/
theorem register_expands_composites :
    (∀ (α : Type) (w : World α) (t : Nat) (cb : Cb) (o : Bool),
      (register w t "after_save" cb o).subs =
        w.subs ++ [⟨t, "after_insert", cb, o⟩, ⟨t, "after_update", cb, o⟩]) ∧
    (∀ (α : Type) (w : World α) (t : Nat) (cb : Cb) (o : Bool),
      (register w t "before_save" cb o).subs =
        w.subs ++ [⟨t, "before_insert", cb, o⟩, ⟨t, "before_update", cb, o⟩]) ∧
    (∀ (α : Type) (w : World α) (t : Nat) (cb : Cb) (o : Bool),
      (register w t "after_touch" cb o).subs =
        w.subs ++ [⟨t, "after_insert", cb, o⟩, ⟨t, "after_update", cb, o⟩,
          ⟨t, "after_delete", cb, o⟩]) ∧
    (∀ (α : Type) (w : World α) (t : Nat) (cb : Cb) (o : Bool),
      (register w t "before_touch" cb o).subs =
        w.subs ++ [⟨t, "before_insert", cb, o⟩, ⟨t, "before_update", cb, o⟩,
          ⟨t, "before_delete", cb, o⟩]) ∧
    (∀ (α : Type) (w : World α) (t : Nat) (e : String) (cb : Cb) (o : Bool),
      e ≠ "after_save" → e ≠ "before_save" → e ≠ "after_touch" →
      e ≠ "before_touch" →
      (register w t e cb o).subs = w.subs ++ [⟨t, e, cb, o⟩]) := by
  refine ⟨?_, ?_, ?_, ?_, ?_⟩
  · intro α w t cb o
    simp [register, saListen]
  · intro α w t cb o
    simp [register, saListen]
  · intro α w t cb o
    simp [register, saListen]
  · intro α w t cb o
    simp [register, saListen]
  · intro α w t e cb o h1 h2 h3 h4
    unfold register saListen
    rw [if_neg h1, if_neg h2, if_neg h3, if_neg h4]

theorem register_expands_composites_witness :
    ("bogus_event" ≠ "after_save" ∧ "bogus_event" ≠ "before_save" ∧
      "bogus_event" ≠ "after_touch" ∧ "bogus_event" ≠ "before_touch") ∧
    (register (emptyWorld : World Nat) 3 "after_save" (Cb.reg 1 0) true).subs =
      [⟨3, "after_insert", Cb.reg 1 0, true⟩,
        ⟨3, "after_update", Cb.reg 1 0, true⟩] ∧
    (register (emptyWorld : World Nat) 3 "bogus_event" (Cb.reg 1 0) false).subs =
      [⟨3, "bogus_event", Cb.reg 1 0, false⟩] :=
  ⟨⟨by decide, by decide, by decide, by decide⟩,
    by rw [register_expands_composites.1 Nat emptyWorld 3 (Cb.reg 1 0) true]; rfl,
    by rw [register_expands_composites.2.2.2.2 Nat emptyWorld 3 "bogus_event"
        (Cb.reg 1 0) false (by decide) (by decide) (by decide) (by decide)]; rfl⟩

/-- C5: attaching the final callback performs the stage-0 registration
immediately — the applied world already holds the stage-0
subscription(s), with the once flag equal to the chain's own once
setting — while every registration performed by a chained stage of index
at least 1 is installed with `once = true`, and a once-subscription is
removed by the dispatch when it fires. -/
theorem apply_immediate_and_once_flags :
    (∀ (α : Type) (tg : Tgt α) (e0 : String) (rest : List (Tgt α × String))
        (crest : List (Option (CondFn α))) (uk o : Bool) (nm : Option String)
        (f : Func α),
      ∃ w0, (applyCall ⟨(tg, e0) :: rest, none :: crest, uk, o, nm⟩ f
          emptyWorld).2.2 = .ok w0 ∧
        w0.subs = (expandEvent e0).map (fun e' =>
          ⟨tg.resolve [], e',
            (if ((tg, e0) :: rest).length ≤ 1 then Cb.wrap 1 else Cb.reg 1 1),
            o⟩)) ∧
    (∀ (α : Type) (l : Listener α) (i r : Nat) (a : List α) (w w' : World α),
      1 ≤ i → registerFire l i r a w = .ok w' →
      ∃ tail, w'.subs = w.subs ++ tail ∧ ∀ s ∈ tail, s.once = true) ∧
    (∀ (α : Type) (l : Listener α) (k : Nat) (a : List α) (w : World α)
        (s : Subscription) (w' : World α),
      w.subs.get? k = some s → s.once = true → fireAt l k a w = .ok w' →
      ∃ tail, w'.subs = w.subs.eraseIdx k ++ tail) := by
  refine ⟨?_, ?_, ?_⟩
  · intro α tg e0 rest crest uk o nm f
    refine ⟨_, applyCall_start tg e0 rest crest uk o nm f, ?_⟩
    rw [register_subs]
    rfl
  · intro α l i r a w w' hi h
    exact registerFire_once l i r a w w' hi h
  · intro α l k a w s w' hget honce h
    unfold fireAt at h
    rw [hget] at h
    dsimp only at h
    rw [if_pos honce] at h
    cases hcb : s.cb with
    | reg i r =>
      rw [hcb] at h
      obtain ⟨tail, htail⟩ := registerFire_subs_ext l i r a
        { w with subs := w.subs.eraseIdx k } w' h
      exact ⟨tail, htail⟩
    | wrap r =>
      rw [hcb] at h
      have := wrapperFire_subs l
        (heapGet { w with subs := w.subs.eraseIdx k } r) a
        { w with subs := w.subs.eraseIdx k } w' h
      exact ⟨[], by rw [this]; simp⟩

theorem apply_immediate_and_once_flags_witness :
    (∃ w0, (applyCall (⟨[((Tgt.concrete 0 : Tgt Nat), "e0"), (Tgt.concrete 1, "e1")],
        [none, none], false, false, none⟩ : Listener Nat) fC
        emptyWorld).2.2 = .ok w0 ∧
      w0.subs = (expandEvent "e0").map (fun e' =>
        ⟨(Tgt.concrete 0 : Tgt Nat).resolve [], e',
          (if ([((Tgt.concrete 0 : Tgt Nat), "e0"),
            (Tgt.concrete 1, "e1")]).length ≤ 1 then Cb.wrap 1 else Cb.reg 1 1),
          false⟩)) ∧
    (1 ≤ 1 ∧ registerFire lC2 1 1 [5] (⟨[[], []],
      [⟨0, "e0", Cb.reg 1 1, false⟩], []⟩ : World Nat) =
      .ok ⟨[[], [5]], [⟨0, "e0", Cb.reg 1 1, false⟩,
        ⟨1, "e1", Cb.wrap 1, true⟩], []⟩ ∧
      ∃ tail, (⟨[[], [5]], [⟨0, "e0", Cb.reg 1 1, false⟩,
          ⟨1, "e1", Cb.wrap 1, true⟩], []⟩ : World Nat).subs =
        (⟨[[], []], [⟨0, "e0", Cb.reg 1 1, false⟩], []⟩ : World Nat).subs ++ tail ∧
        ∀ s ∈ tail, s.once = true) ∧
    ((⟨[[], [1]], [⟨1, "e1", Cb.wrap 1, true⟩], []⟩ : World Nat).subs.get? 0 =
        some ⟨1, "e1", Cb.wrap 1, true⟩ ∧
      fireAt lC2 0 [7] (⟨[[], [1]], [⟨1, "e1", Cb.wrap 1, true⟩], []⟩ : World Nat) =
        .ok ⟨[[], [1]], [], [.positional [1, 7]]⟩ ∧
      ∃ tail, (⟨[[], [1]], [], [.positional [1, 7]]⟩ : World Nat).subs =
        (⟨[[], [1]], [⟨1, "e1", Cb.wrap 1, true⟩], []⟩ : World Nat).subs.eraseIdx 0
          ++ tail) :=
  ⟨apply_immediate_and_once_flags.1 Nat (Tgt.concrete 0) "e0"
      [(Tgt.concrete 1, "e1")] [none] false false none fC,
    ⟨Nat.le_refl 1, rfl,
      apply_immediate_and_once_flags.2.1 Nat lC2 1 1 [5]
        ⟨[[], []], [⟨0, "e0", Cb.reg 1 1, false⟩], []⟩
        ⟨[[], [5]], [⟨0, "e0", Cb.reg 1 1, false⟩,
          ⟨1, "e1", Cb.wrap 1, true⟩], []⟩ (Nat.le_refl 1) rfl⟩,
    ⟨rfl, rfl,
      apply_immediate_and_once_flags.2.2 Nat lC2 0 [7]
        ⟨[[], [1]], [⟨1, "e1", Cb.wrap 1, true⟩], []⟩
        ⟨1, "e1", Cb.wrap 1, true⟩ ⟨[[], [1]], [], [.positional [1, 7]]⟩
        rfl rfl rfl⟩⟩

/-- C6 (counterexample): on a keyword-mode chain with an attached
condition that returns false, firing the pending stage raises
`AttributeError` out of the keyword zip instead of silently abandoning
the chain attempt. -/
theorem kwargs_condition_fires_error :
    (applyCall lC6 fC emptyWorld).2.2 =
      .ok ⟨[[], []], [⟨0, "e0", Cb.reg 1 1, false⟩], []⟩ ∧
    fireAt lC6 0 [5] ⟨[[], []], [⟨0, "e0", Cb.reg 1 1, false⟩], []⟩ =
      .error .attributeError :=
  ⟨rfl, rfl⟩

/-- C6 (amended): whenever a stage condition evaluates to false on the
accumulated arguments — which the code can only do in positional mode,
since the keyword zip raises `AttributeError` — the firing appends the
new arguments to the accumulator and then abandons the chain attempt
silently: no exception, no new registration, and no callback
invocation. -/
theorem condition_false_silent_abandon (α : Type) (l : Listener α) (i r : Nat)
    (a : List α) (w : World α)
    (hc : conditionMet l i (heapGet w r ++ a) = .ok false) :
    ∃ w', registerFire l i r a w = .ok w' ∧
      w'.heap = (heapSet w r (heapGet w r ++ a)).heap ∧
      w'.subs = w.subs ∧ w'.calls = w.calls :=
  ⟨heapSet w r (heapGet w r ++ a), registerFire_abandoned l i r a w hc,
    rfl, rfl, rfl⟩

theorem condition_false_silent_abandon_witness :
    conditionMet lC6p 1 (heapGet (⟨[[], []],
      [⟨0, "e0", Cb.reg 1 1, false⟩], []⟩ : World Nat) 1 ++ [5]) = .ok false ∧
    (∃ w', registerFire lC6p 1 1 [5] (⟨[[], []],
        [⟨0, "e0", Cb.reg 1 1, false⟩], []⟩ : World Nat) = .ok w' ∧
      w'.heap = (heapSet (⟨[[], []], [⟨0, "e0", Cb.reg 1 1, false⟩], []⟩ :
        World Nat) 1 (heapGet (⟨[[], []],
        [⟨0, "e0", Cb.reg 1 1, false⟩], []⟩ : World Nat) 1 ++ [5])).heap ∧
      w'.subs = (⟨[[], []], [⟨0, "e0", Cb.reg 1 1, false⟩], []⟩ :
        World Nat).subs ∧
      w'.calls = (⟨[[], []], [⟨0, "e0", Cb.reg 1 1, false⟩], []⟩ :
        World Nat).calls) :=
  ⟨rfl, condition_false_silent_abandon Nat lC6p 1 1 [5]
    ⟨[[], []], [⟨0, "e0", Cb.reg 1 1, false⟩], []⟩ rfl⟩

/-- C7 (as the code behaves): `EventListener.remove` raises `NameError`
on its first loop iteration — the identifier it passes to
`sa.event.remove` is unbound — so chain removal never unregisters
anything and never completes without raising. -/
theorem remove_raises_name_error : removeListener lC2 = .error .nameError := rfl

/-- C8 (counterexample): registering an event name that is absent from
both the primitive and the synthetic tables does not raise — `register`
forwards the unknown name unchanged to the primitive `sa.event.listen`,
installing a subscription under that name. -/
theorem register_unknown_passthrough :
    register (emptyWorld : World Nat) 7 "bogus" (Cb.wrap 0) false =
      ⟨[], [⟨7, "bogus", Cb.wrap 0, false⟩], []⟩ := rfl

/-- C8 (amended): subscripting the catalog with an absent name fails with
`KeyError`, while `register` performs no catalog validation at all — any
event name other than the four composites is forwarded unchanged, as a
single primitive `listen` call, without raising. -/
theorem unknown_event_lookup_and_register :
    (∀ (β : Type) (d : List (String × β)) (k : String),
      dlookup d k = none → catalogFind d k = .error .keyError) ∧
    (∀ (α : Type) (w : World α) (t : Nat) (e : String) (cb : Cb) (o : Bool),
      e ≠ "after_save" → e ≠ "before_save" → e ≠ "after_touch" →
      e ≠ "before_touch" →
      register w t e cb o = saListen w t e cb o) := by
  constructor
  · intro β d k h
    unfold catalogFind
    rw [h]
  · intro α w t e cb o h1 h2 h3 h4
    unfold register
    rw [if_neg h1, if_neg h2, if_neg h3, if_neg h4]

theorem unknown_event_lookup_and_register_witness :
    dlookup (eventsCatalog []) "bogus" = none ∧
    catalogFind (eventsCatalog []) "bogus" = .error .keyError ∧
    ("bogus" ≠ "after_save" ∧ "bogus" ≠ "before_save" ∧
      "bogus" ≠ "after_touch" ∧ "bogus" ≠ "before_touch") ∧
    register (emptyWorld : World Nat) 7 "bogus" (Cb.wrap 0) false =
      saListen (emptyWorld : World Nat) 7 "bogus" (Cb.wrap 0) false :=
  ⟨by decide,
    unknown_event_lookup_and_register.1 EventInfo (eventsCatalog []) "bogus"
      (by decide),
    ⟨by decide, by decide, by decide, by decide⟩,
    unknown_event_lookup_and_register.2 Nat emptyWorld 7 "bogus" (Cb.wrap 0)
      false (by decide) (by decide) (by decide) (by decide)⟩

/-- C9: catalog construction maps every public non-`dispatch` member of a
hook class — and only those — to a descriptor carrying the class's
declared dispatch-target type and the member's parameter names with the
leading self parameter dropped, in declared order; and the dict merge is
deterministic last-registered-wins: a key present in the later operand
takes the later operand's value, any other key keeps the earlier one. -/
theorem catalog_construction_maps :
    (∀ (dt : Nat) (ms : List Meth) (m : Meth),
      (ms.map Meth.mname).Nodup → m ∈ ms →
      pyStartswith m.mname "_" = false → m.mname ≠ "dispatch" →
      dlookup (from_event_class ⟨dt, ms⟩) m.mname =
        some ⟨dt, m.params.filter (fun p => p != "self")⟩) ∧
    (∀ (c : HookClass) (k : String),
      pyStartswith k "_" = true ∨ k = "dispatch" →
      dlookup (from_event_class c) k = none) ∧
    (∀ (ps : List String), "self" ∉ ps →
      ("self" :: ps).filter (fun p => p != "self") = ps) ∧
    (∀ (ps : List String), "self" ∉ ps →
      ps.filter (fun p => p != "self") = ps) ∧
    (∀ (β : Type) (d1 d2 : List (String × β)) (k : String) (v : β),
      (d2.map fun p => p.1).Nodup → dlookup d2 k = some v →
      dlookup (dunion d1 d2) k = some v) ∧
    (∀ (β : Type) (d1 d2 : List (String × β)) (k : String),
      dlookup d2 k = none → dlookup (dunion d1 d2) k = dlookup d1 k) :=
  ⟨fun dt ms m => from_event_class_lookup dt ms m,
    from_event_class_private,
    filter_self_leading,
    filter_self_not_mem,
    fun _ d1 d2 k v => dlookup_dunion_right d1 d2 k v,
    fun _ d1 d2 k => dlookup_dunion_left d1 d2 k⟩

theorem catalog_construction_maps_witness :
    (([⟨"before_update", ["self", "mapper", "connection", "target"]⟩,
        ⟨"_private", ["self"]⟩, ⟨"dispatch", []⟩] : List Meth).map
          Meth.mname).Nodup ∧
    (⟨"before_update", ["self", "mapper", "connection", "target"]⟩ : Meth) ∈
      ([⟨"before_update", ["self", "mapper", "connection", "target"]⟩,
        ⟨"_private", ["self"]⟩, ⟨"dispatch", []⟩] : List Meth) ∧
    dlookup (from_event_class ⟨9, [⟨"before_update",
        ["self", "mapper", "connection", "target"]⟩,
        ⟨"_private", ["self"]⟩, ⟨"dispatch", []⟩]⟩) "before_update" =
      some ⟨9, ["self", "mapper", "connection", "target"].filter
        (fun p => p != "self")⟩ ∧
    dlookup (from_event_class ⟨9, [⟨"before_update",
        ["self", "mapper", "connection", "target"]⟩,
        ⟨"_private", ["self"]⟩, ⟨"dispatch", []⟩]⟩) "dispatch" = none ∧
    ("self" :: ["mapper", "connection"]).filter (fun p => p != "self") =
      ["mapper", "connection"] ∧
    dlookup (dunion [("after_save", 1)] [("after_save", 2)]) "after_save" =
      some 2 ∧
    dlookup (dunion [("k1", 1)] [("after_save", 2)]) "k1" = some 1 :=
  ⟨by decide, by decide,
    catalog_construction_maps.1 9
      [⟨"before_update", ["self", "mapper", "connection", "target"]⟩,
        ⟨"_private", ["self"]⟩, ⟨"dispatch", []⟩]
      ⟨"before_update", ["self", "mapper", "connection", "target"]⟩
      (by decide) (by decide) (by decide) (by decide),
    catalog_construction_maps.2.1
      ⟨9, [⟨"before_update", ["self", "mapper", "connection", "target"]⟩,
        ⟨"_private", ["self"]⟩, ⟨"dispatch", []⟩]⟩ "dispatch" (Or.inr rfl),
    catalog_construction_maps.2.2.1 ["mapper", "connection"] (by decide),
    catalog_construction_maps.2.2.2.2.1 Nat [("after_save", 1)]
      [("after_save", 2)] "after_save" 2 (by decide) (by decide),
    catalog_construction_maps.2.2.2.2.2 Nat [("k1", 1)] [("after_save", 2)]
      "k1" (by decide)⟩

/-- C10: applying a chain to a function object as the final decorator
returns the very same function object, not a wrapper — the only effect on
it is setting its listener attribute — and the chain takes the function's
name as its own exactly when it has no (truthy) name yet; the chain's
stages and conditions are untouched. -/
theorem apply_returns_same_function (α : Type) (l : Listener α) (f : Func α)
    (w : World α) :
    (applyCall l f w).2.1 = { f with listener := true } ∧
    (applyCall l f w).1.name =
      (if pyFalsy l.name then some f.fname else l.name) ∧
    (applyCall l f w).1.targets = l.targets ∧
    (applyCall l f w).1.conditions = l.conditions :=
  ⟨rfl, rfl, rfl, rfl⟩
